import Mathlib

/-!
# Verification of the chunked-VAE reconstruction driver (`examples/rec_video_vae.py`)

Shallow embedding of the algorithmic core of the repository:

* `process_in_chunks` — the chunked codec driver with trailing-overlap
  lookahead and 1/4–3/4 seam blending;
* the frame-sampler index computation shared by `read_video` and
  `RealVideoDataset._load_video`;
* `_format_video_shape` — the shape normalizer;
* the pixel pipeline of `custom_to_video`.

Modelling conventions:

* A frame sequence is modelled along its time axis only: `Video := List ℚ`,
  one rational per time index.  Every tensor operation the driver performs
  (slicing `[:, :, a:b]`, elementwise add, scalar multiply, `torch.cat` on
  `dim=2`) acts pointwise on the non-time axes, so a single representative
  scalar per frame captures the algorithm exactly.
* Python machine integers are `ℕ`/`ℤ`; negative-step-free Python slices are
  translated to `List.take`/`List.drop`, with the two slice forms that have
  special behaviour at `0` (`l[:-k]` and `l[-k:]`) given dedicated
  definitions below.
* Python float division in the sampler and torch float arithmetic in the
  blending are modelled by exact rational arithmetic; `int(...)` /
  `.astype(...)` casts truncate toward zero (`qTrunc`).
* The codec (`model.encode` / `.sample` / `.decode`) is an opaque function
  `Video → Video`, matching the spec's Codec Capability boundary.
* The `assert` at the head of `process_in_chunks` is the `assertOk` flag of
  the result; `torch.cat` on an empty list raises in Python, which is the
  `output = none` case of an otherwise-completed run.
-/

/-- A frame sequence, restricted to its time axis: one representative
rational value per frame. -/
abbrev Video := List ℚ

/-- Python slice `l[:-k]`.  For `k = 0` Python's `l[:-0] = l[:0]` is empty;
for `k ≥ len(l)` the result is empty as well. -/
def dropLastPy (l : List ℚ) (k : ℕ) : List ℚ :=
  if k = 0 then [] else l.take (l.length - k)

/-- Python slice `l[-k:]`.  For `k = 0` Python's `l[-0:] = l[0:]` is the
whole list; for `k ≥ len(l)` it is the whole list as well. -/
def lastSlicePy (l : List ℚ) (k : ℕ) : List ℚ :=
  if k = 0 then l else l.drop (l.length - k)

/-- Truncation toward zero, the semantics of Python `int(...)` and of a
NumPy/torch cast from float to an integer dtype. -/
def qTrunc (q : ℚ) : ℤ :=
  if q < 0 then -Int.floor (-q) else Int.floor q

/-- The loop body of `process_in_chunks` (source lines 54–81), as a
fuel-indexed recursion.  State: the cursor `start`, the reconstruction
buffer in reverse order (head = most recently appended entry, the only one
the source ever mutates), the list of blend records, and the number of
codec invocations so far.

Each blend record is `(absStart, len)`: the region of the final
concatenated output the blend writes, as an absolute frame offset plus
length.  At the moment a blend happens, every buffer entry below the one
being rewritten is final, so the offset is the sum of their lengths plus
the length of the kept prefix `prev[:-overlap]`.

One unit of fuel per loop iteration; the driver passes `video.length`
units, enough for every `chunk_size ≥ 1` since each iteration advances the
cursor by `chunk_size`. -/
def chunkLoop (codec : Video → Video) (video : Video) (chunk_size overlap : ℕ) :
    ℕ → ℕ → List Video → List (ℕ × ℕ) → ℕ → List Video × List (ℕ × ℕ) × ℕ
  | 0, _, chunksRev, blendsRev, calls => (chunksRev, blendsRev, calls)
  | fuel + 1, start, chunksRev, blendsRev, calls =>
    let num_frames := video.length
    if start < num_frames then
      let e0 := min (start + chunk_size) num_frames
      let e := if start + chunk_size + overlap < num_frames then e0 + overlap else e0
      let chunk := (video.drop start).take (e - start)
      let recon_chunk := codec chunk
      match chunksRev with
      | [] =>
        chunkLoop codec video chunk_size overlap fuel (start + chunk_size)
          [recon_chunk] blendsRev (calls + 1)
      | prev :: rest =>
        let overlap_step := min overlap recon_chunk.length
        let overlap_tensor := List.zipWith (fun p q => p * 1 / 4 + q * 3 / 4)
          (lastSlicePy prev overlap_step) (recon_chunk.take overlap_step)
        let newPrev := dropLastPy prev overlap ++ overlap_tensor
        let absStart := (rest.map List.length).sum + (dropLastPy prev overlap).length
        let appended := if e < num_frames then recon_chunk.drop overlap else recon_chunk
        chunkLoop codec video chunk_size overlap fuel (start + chunk_size)
          (appended :: newPrev :: rest)
          ((absStart, overlap_tensor.length) :: blendsRev) (calls + 1)
    else (chunksRev, blendsRev, calls)

/-- Result of a `process_in_chunks` run.

* `assertOk`: whether the `assert (chunk_size + overlap - 1) % 4 == 0`
  at line 50 passed.  `false` means the AssertionError — the fatal
  configuration error — fired before anything else ran.
* `chunks`: the final reconstruction buffer, in order.
* `blends`: the blend records, in chronological order.
* `output`: `torch.cat(output_chunks, dim=2)`; `none` when the buffer is
  empty (Python `torch.cat([])` raises) or when the assert failed.
* `codecCalls`: number of encode/decode passes performed. -/
structure DriverResult where
  assertOk : Bool
  chunks : List Video
  blends : List (ℕ × ℕ)
  output : Option Video
  codecCalls : ℕ
deriving DecidableEq

/-- Model of `process_in_chunks` (source lines 43–82).  The precondition is
evaluated over `ℤ` exactly as Python evaluates
`(chunk_size + overlap - 1) % 4` (Python `%` is `Int.emod`). -/
def process_in_chunks (codec : Video → Video) (video_data : Video)
    (chunk_size overlap : ℕ) : DriverResult :=
  if ((chunk_size : ℤ) + (overlap : ℤ) - 1) % 4 = 0 then
    let r := chunkLoop codec video_data chunk_size overlap video_data.length 0 [] [] 0
    ⟨true, r.1.reverse, r.2.1.reverse,
      if r.1.isEmpty then none else some r.1.reverse.flatten, r.2.2⟩
  else ⟨false, [], [], none, 0⟩

/-- Length shadow of `chunkLoop` for an identity codec: the same control
flow, tracking only the length `p` of the buffer's head entry and the
contribution of each finalized entry. -/
def lenLoop (T c v : ℕ) : ℕ → ℕ → ℕ → ℕ
  | 0, _, p => p
  | fuel + 1, s, p =>
    if s < T then
      let e0 := min (s + c) T
      let e := if s + c + v < T then e0 + v else e0
      let L := e - s
      let step := min v L
      let newLast := if e < T then L - v else L
      (p - v + step) + lenLoop T c v fuel (s + c) newLast
    else p

/-- Closed form for the output time length of `process_in_chunks` with an
identity codec, input length `T ≥ 1`, `overlap ≥ 1` and
`chunk_size ≥ 2·overlap`: the length of the final window is
`r = (T-1) % chunk_size + 1`; a single window reproduces `T`, and
otherwise the full final window (appended without dropping its leading
overlap) adds `overlap` frames when it is longer than `overlap`, and a
short final window loses `overlap - r` frames to the tail rewrite. -/
def outputLenFormula (T c v : ℕ) : ℕ :=
  if T ≤ c then T
  else if v < (T - 1) % c + 1 then T + v
  else (T + ((T - 1) % c + 1)) - v

/-- Model of `np.linspace(start, stop, n)` with `endpoint=True`, in exact rational
arithmetic.  NumPy returns `[start]` for `n = 1` and the empty array for
`n = 0`; the final sample is exactly `stop`. -/
def pyLinspace (start stop : ℚ) (n : ℕ) : List ℚ :=
  if n = 0 then []
  else if n = 1 then [start]
  else (List.range n).map fun i : ℕ =>
    start + (stop - start) * (i : ℚ) / ((n : ℚ) - 1)

/-- The frame-index computation shared verbatim by `read_video`
(source lines 111–134) and `RealVideoDataset._load_video` (lines 164–191):
the sampled `frame_id_list` together with whether the reduced-count
diagnostic was printed (the `else` branch).  Python's float division
`total_frames / sample_frames_len` is modelled by exact rational
division; `int(...)` and the `dtype=int` cast truncate toward zero. -/
def frame_id_list (total_frames num_frames sample_rate : ℕ) :
    List ℤ × Bool :=
  let sample_frames_len := sample_rate * num_frames
  if total_frames > sample_frames_len then
    (((pyLinspace 0 ((sample_frames_len : ℚ) - 1) num_frames).map qTrunc), false)
  else
    let eff := (qTrunc ((total_frames : ℚ) / (sample_frames_len : ℚ) * (num_frames : ℚ))).toNat
    (((pyLinspace 0 ((total_frames : ℚ) - 1) eff).map qTrunc), true)

/-- The `new_time` computation of `_format_video_shape`
(source lines 224–228). -/
def newTimeOf (time time_compress : ℕ) : ℕ :=
  if (time - 1) % time_compress ≠ 0 then time - 1 - (time - 1) % time_compress
  else time

/-- The `new_height` / `new_width` computation of `_format_video_shape`
(source lines 229–236). -/
def newSpatialOf (d spatial_compress : ℕ) : ℕ :=
  if d % spatial_compress ≠ 0 then d - d % spatial_compress else d

/-- A dense `(C, T, H, W)` tensor with value `f c t h w` at each index,
as nested lists. -/
def mkTensor (c t h w : ℕ) (f : ℕ → ℕ → ℕ → ℕ → ℚ) :
    List (List (List (List ℚ))) :=
  (List.range c).map fun i =>
    (List.range t).map fun j =>
      (List.range h).map fun k =>
        (List.range w).map fun l => f i j k l

/-- Model of `_format_video_shape` (source lines 220–237; the source defaults are
`time_compress=4`, `spatial_compress=8` and `_preprocess` calls it with
those defaults).  Dimensions are read off the nested-list tensor the way
`video.shape[1..3]` reads them off a dense tensor. -/
def format_video_shape (video : List (List (List (List ℚ))))
    (time_compress spatial_compress : ℕ) : List (List (List (List ℚ))) :=
  let time := (video.headD []).length
  let height := ((video.headD []).headD []).length
  let width := (((video.headD []).headD []).headD []).length
  let new_time := newTimeOf time time_compress
  let new_height := newSpatialOf height spatial_compress
  let new_width := newSpatialOf width spatial_compress
  video.map fun ch =>
    (ch.take new_time).map fun fr =>
      (fr.take new_height).map fun row => row.take new_width

/-- Model of `torch.clamp(x, lo, hi)` on one element. -/
def tclamp (x lo hi : ℚ) : ℚ := max lo (min x hi)

/-- The value `custom_to_video` (source lines 99–108) computes for one
element just before the `astype(np.uint8)` cast: clamp to `[-1, 1]`,
shift to `[0, 1]`, scale by 255. -/
def custom_to_video_pre (x : ℚ) : ℚ :=
  255 * ((tclamp x (-1) 1 + 1) / 2)

/-- The element value `custom_to_video` hands to `array_to_video`: the
pre-cast value truncated by `astype(np.uint8)`.  The theorem below shows
the pre-cast value lies in `[0, 255]`, so the uint8 cast never wraps and
truncation is its exact semantics. -/
def custom_to_video_pixel (x : ℚ) : ℤ :=
  qTrunc (custom_to_video_pre x)

/-! ## Helper lemmas about the loop -/

theorem chunkLoop_stop (codec : Video → Video) (video : Video) (c v : ℕ)
    (fuel s : ℕ) (chs : List Video) (bl : List (ℕ × ℕ)) (k : ℕ)
    (h : video.length ≤ s) :
    chunkLoop codec video c v fuel s chs bl k = (chs, bl, k) := by
  cases fuel with
  | zero => rfl
  | succ n => simp [chunkLoop, Nat.not_lt.mpr h]

theorem lenLoop_stop (T c v : ℕ) (fuel s p : ℕ) (h : T ≤ s) :
    lenLoop T c v fuel s p = p := by
  cases fuel with
  | zero => rfl
  | succ n => simp [lenLoop, Nat.not_lt.mpr h]

theorem chunkLoop_step_nil (codec : Video → Video) (video : Video) (c v : ℕ)
    (fuel s : ℕ) (bl : List (ℕ × ℕ)) (k : ℕ) (e : ℕ)
    (he : e = if s + c + v < video.length then min (s + c) video.length + v
              else min (s + c) video.length)
    (h : s < video.length) :
    chunkLoop codec video c v (fuel + 1) s [] bl k =
      chunkLoop codec video c v fuel (s + c)
        [codec ((video.drop s).take (e - s))] bl (k + 1) := by
  subst he; simp [chunkLoop, h]

theorem chunkLoop_step_cons (codec : Video → Video) (video : Video) (c v : ℕ)
    (fuel s : ℕ) (prev : Video) (rest : List Video) (bl : List (ℕ × ℕ)) (k : ℕ)
    (e : ℕ)
    (he : e = if s + c + v < video.length then min (s + c) video.length + v
              else min (s + c) video.length)
    (recon : Video) (hrecon : recon = codec ((video.drop s).take (e - s)))
    (ot : Video)
    (hot : ot = List.zipWith (fun p q => p * 1 / 4 + q * 3 / 4)
      (lastSlicePy prev (min v recon.length)) (recon.take (min v recon.length)))
    (h : s < video.length) :
    chunkLoop codec video c v (fuel + 1) s (prev :: rest) bl k =
      chunkLoop codec video c v fuel (s + c)
        ((if e < video.length then recon.drop v else recon) ::
          (dropLastPy prev v ++ ot) :: rest)
        (((rest.map List.length).sum + (dropLastPy prev v).length,
          ot.length) :: bl) (k + 1) := by
  subst he hrecon hot; simp [chunkLoop, h]

theorem chunkLoop_step_nil' (codec : Video → Video) (video : Video) (c v : ℕ)
    (fuel s : ℕ) (bl : List (ℕ × ℕ)) (k : ℕ) (e : ℕ)
    (he : e = if s + c + v < video.length then min (s + c) video.length + v
              else min (s + c) video.length)
    (h : s < video.length) (hfuel : 0 < fuel) :
    chunkLoop codec video c v fuel s [] bl k =
      chunkLoop codec video c v (fuel - 1) (s + c)
        [codec ((video.drop s).take (e - s))] bl (k + 1) := by
  obtain ⟨n, rfl⟩ : ∃ n, fuel = n + 1 := ⟨fuel - 1, by omega⟩
  exact chunkLoop_step_nil codec video c v n s bl k e he h

theorem dropLastPy_length (l : List ℚ) (k : ℕ) (hk : k ≠ 0) :
    (dropLastPy l k).length = l.length - k := by
  simp [dropLastPy, hk]

theorem lastSlicePy_length (l : List ℚ) (k : ℕ) (hk : k ≠ 0) :
    (lastSlicePy l k).length = min k l.length := by
  simp [lastSlicePy, hk]; omega

theorem lenLoop_step (T c v n s p e : ℕ)
    (he : e = if s + c + v < T then min (s + c) T + v else min (s + c) T)
    (hs : s < T) :
    lenLoop T c v (n + 1) s p =
      (p - v + min v (e - s)) +
        lenLoop T c v n (s + c) (if e < T then (e - s) - v else e - s) := by
  subst he; simp [lenLoop, hs]

theorem chunkLoop_len (video : Video) (c v : ℕ) (hv : 1 ≤ v) (hc : 2 * v ≤ c) :
    ∀ fuel s prev rest bl k, v ≤ prev.length →
      (((chunkLoop (fun l => l) video c v fuel s (prev :: rest) bl k).1).map
          List.length).sum
        = (rest.map List.length).sum +
            lenLoop video.length c v fuel s prev.length := by
  intro fuel
  induction fuel with
  | zero =>
    intro s prev rest bl k _
    simp [chunkLoop, lenLoop, Nat.add_comm]
  | succ n ih =>
    intro s prev rest bl k hp
    by_cases hs : s < video.length
    · by_cases hterm : video.length ≤ s + c
      · -- final window: e = video.length, full reconstructed chunk appended
        have hext : ¬ (s + c + v < video.length) := by omega
        have he : video.length
            = if s + c + v < video.length then min (s + c) video.length + v
              else min (s + c) video.length := by
          rw [if_neg hext, Nat.min_eq_right hterm]
        rw [chunkLoop_step_cons (fun l => l) video c v n s prev rest bl k
              video.length he ((video.drop s).take (video.length - s)) rfl _ rfl hs,
            chunkLoop_stop _ _ _ _ _ _ _ _ _ (by omega),
            lenLoop_step video.length c v n s prev.length video.length he hs,
            lenLoop_stop _ _ _ _ _ _ (by omega)]
        rw [if_neg (lt_irrefl video.length), if_neg (lt_irrefl video.length)]
        simp only [List.map_cons, List.sum_cons, List.length_append,
          List.length_zipWith, List.length_take, List.length_drop, min_self]
        rw [dropLastPy_length _ _ (by omega : v ≠ 0),
          lastSlicePy_length _ _
            (show min v (video.length - s) ≠ 0 by omega)]
        omega
      · -- a further window follows: e < video.length, overlap dropped
        push_neg at hterm
        have he : (if s + c + v < video.length then s + c + v else s + c)
            = if s + c + v < video.length then min (s + c) video.length + v
              else min (s + c) video.length := by
          rw [Nat.min_eq_left (by omega)]
        set E := if s + c + v < video.length then s + c + v else s + c with hE
        have hElt : E < video.length := by rw [hE]; split <;> omega
        have hEc : c ≤ E - s ∧ E - s ≤ c + v := by rw [hE]; split <;> omega
        rw [chunkLoop_step_cons (fun l => l) video c v n s prev rest bl k
              E he ((video.drop s).take (E - s)) rfl _ rfl hs,
            lenLoop_step video.length c v n s prev.length E he hs]
        have hrl : ((video.drop s).take (E - s)).length = E - s := by
          simp; omega
        have hstep : min v ((video.drop s).take (E - s)).length ≠ 0 := by
          rw [hrl]; omega
        rw [if_pos hElt, if_pos hElt]
        have hdl : (((video.drop s).take (E - s)).drop v).length = (E - s) - v := by
          simp; omega
        rw [ih (s + c) _ _ _ _ (by rw [hdl]; omega), hdl]
        simp only [List.map_cons, List.sum_cons, List.length_append,
          List.length_zipWith, List.length_take, List.length_drop]
        rw [dropLastPy_length _ _ (by omega : v ≠ 0),
          lastSlicePy_length _ _
            (show min v (min (E - s) (video.length - s)) ≠ 0 by omega)]
        omega
    · rw [chunkLoop_stop _ _ _ _ _ _ _ _ _ (by omega),
          lenLoop_stop _ _ _ _ _ _ (by omega)]
      simp [Nat.add_comm]

theorem lenLoop_formula (T c v : ℕ) (hv : 1 ≤ v) (hc : 2 * v ≤ c) :
    ∀ fuel s p, s < T → T - s ≤ fuel → v ≤ p →
      lenLoop T c v fuel s p =
        if T ≤ s + c then p - v + min v (T - s) + (T - s)
        else (p + (T - s) + min v ((T - s - 1) % c + 1) +
          (if v < (T - s - 1) % c + 1 then v else 0)) - 2 * v := by
  intro fuel
  induction fuel with
  | zero => intro s p hs hfuel _; exfalso; omega
  | succ n ih =>
    intro s p hs hfuel hp
    by_cases hterm : T ≤ s + c
    · have he : T = if s + c + v < T then min (s + c) T + v else min (s + c) T := by
        rw [if_neg (by omega), Nat.min_eq_right hterm]
      rw [lenLoop_step T c v n s p T he hs,
        lenLoop_stop _ _ _ _ _ _ (by omega), if_neg (lt_irrefl T), if_pos hterm]
    · push_neg at hterm
      have he : (if s + c + v < T then s + c + v else s + c)
          = if s + c + v < T then min (s + c) T + v else min (s + c) T := by
        rw [Nat.min_eq_left (by omega)]
      set E := if s + c + v < T then s + c + v else s + c with hE
      have hEd : (s + c + v < T ∧ E = s + c + v) ∨ (T ≤ s + c + v ∧ E = s + c) := by
        rw [hE]; split <;> omega
      have hElt : E < T := by omega
      rw [lenLoop_step T c v n s p E he hs, if_pos hElt,
        ih (s + c) (E - s - v) (by omega) (by omega) (by omega),
        if_neg (by omega : ¬ T ≤ s + c)]
      have hmlt : (T - s - 1) % c < c := Nat.mod_lt _ (by omega)
      by_cases hnt : T ≤ s + c + c
      · rw [if_pos hnt]
        have hmod : (T - s - 1) % c = T - s - 1 - c := by
          rw [Nat.mod_eq_sub_mod (by omega : c ≤ T - s - 1),
            Nat.mod_eq_of_lt (by omega)]
        rw [hmod]
        by_cases hvr : v < T - s - 1 - c + 1
        · simp only [if_pos hvr]; omega
        · simp only [if_neg hvr]; omega
      · rw [if_neg hnt]
        have hmlt2 : (T - (s + c) - 1) % c < c := Nat.mod_lt _ (by omega)
        have hmod : (T - s - 1) % c = (T - (s + c) - 1) % c := by
          rw [Nat.mod_eq_sub_mod (by omega : c ≤ T - s - 1)]
          congr 1
          omega
        rw [hmod]
        by_cases hvr : v < (T - (s + c) - 1) % c + 1
        · simp only [if_pos hvr]; omega
        · simp only [if_neg hvr]; omega

theorem chunkLoop_ne_nil (codec : Video → Video) (video : Video) (c v : ℕ) :
    ∀ fuel s chs bl k, chs ≠ [] →
      (chunkLoop codec video c v fuel s chs bl k).1 ≠ [] := by
  intro fuel
  induction fuel with
  | zero => intro s chs bl k h; simpa [chunkLoop] using h
  | succ n ih =>
    intro s chs bl k h
    by_cases hs : s < video.length
    · match chs with
      | [] => exact absurd rfl h
      | prev :: rest =>
        rw [chunkLoop_step_cons codec video c v n s prev rest bl k _ rfl _ rfl
          _ rfl hs]
        exact ih _ _ _ _ (by simp)
    · rw [chunkLoop_stop _ _ _ _ _ _ _ _ _ (by omega)]; exact h

theorem reverse_flatten_length (X : List Video) :
    X.reverse.flatten.length = (X.map List.length).sum := by
  simp [List.length_flatten, List.map_reverse, List.sum_reverse]

/-- A run whose input fits in a single window: one codec pass over the whole
input, no blending, a one-entry buffer. -/
theorem process_single_window (codec : Video → Video) (video : Video) (c v : ℕ)
    (h1 : 1 ≤ video.length) (h2 : video.length ≤ c)
    (hpre : ((c : ℤ) + (v : ℤ) - 1) % 4 = 0) :
    process_in_chunks codec video c v
      = ⟨true, [codec video], [], some (codec video), 1⟩ := by
  obtain ⟨m, hm⟩ : ∃ m, video.length = m + 1 := ⟨video.length - 1, by omega⟩
  have he : video.length
      = if 0 + c + v < video.length then min (0 + c) video.length + v
        else min (0 + c) video.length := by
    rw [if_neg (by omega), Nat.min_eq_right (by omega)]
  simp only [process_in_chunks, if_pos hpre]
  rw [hm, chunkLoop_step_nil codec video c v m 0 [] 0 video.length he (by omega),
    chunkLoop_stop _ _ _ _ _ _ _ _ _ (by omega)]
  simp

/-- With an identity codec the driver completes and its output length is
`outputLenFormula` of the input length. -/
theorem process_identity_length (codec : Video → Video) (video : Video)
    (c v : ℕ) (hcodec : ∀ l, codec l = l) (hT : 1 ≤ video.length)
    (hv : 1 ≤ v) (hc : 2 * v ≤ c)
    (hpre : ((c : ℤ) + (v : ℤ) - 1) % 4 = 0) :
    ∃ o, (process_in_chunks codec video c v).output = some o ∧
      o.length = outputLenFormula video.length c v := by
  have hfc : codec = fun l => l := funext hcodec
  subst hfc
  by_cases hsmall : video.length ≤ c
  · refine ⟨video, ?_, ?_⟩
    · rw [process_single_window _ _ _ _ hT hsmall hpre]
    · simp [outputLenFormula, hsmall]
  · push_neg at hsmall
    set E := if c + v < video.length then c + v else c with hE
    have hEd : (c + v < video.length ∧ E = c + v) ∨
        (video.length ≤ c + v ∧ E = c) := by
      rw [hE]; split <;> omega
    have he : E = if 0 + c + v < video.length
        then min (0 + c) video.length + v else min (0 + c) video.length := by
      rw [Nat.min_eq_left (by omega)]
      simp only [Nat.zero_add]
    simp only [process_in_chunks, if_pos hpre]
    rw [chunkLoop_step_nil' (fun l => l) video c v video.length 0 [] 0 E he
      (by omega) (by omega)]
    simp only [List.drop_zero, Nat.sub_zero, Nat.zero_add]
    have hrl : (video.take E).length = E := by simp; omega
    have hne := chunkLoop_ne_nil (fun l => l) video c v (video.length - 1) c
      [video.take E] [] 1 (by simp)
    have hlen := chunkLoop_len video c v hv hc (video.length - 1) c
      (video.take E) [] [] 1 (by rw [hrl]; omega)
    rw [hrl, lenLoop_formula video.length c v hv hc (video.length - 1) c E
      (by omega) (by omega) (by omega)] at hlen
    have hie : (chunkLoop (fun l => l) video c v (video.length - 1) c
        [video.take E] [] 1).1.isEmpty = false := by
      cases h : (chunkLoop (fun l => l) video c v (video.length - 1) c
          [video.take E] [] 1).1 with
      | nil => exact absurd h hne
      | cons a t => simp
    refine ⟨(chunkLoop (fun l => l) video c v (video.length - 1) c
      [video.take E] [] 1).1.reverse.flatten, ?_, ?_⟩
    · simp [hie]
    · rw [reverse_flatten_length, hlen]
      have hms : (video.length - 1) % c = (video.length - c - 1) % c := by
        rw [Nat.mod_eq_sub_mod (by omega : c ≤ video.length - 1)]
        congr 1
        omega
      simp only [outputLenFormula, List.map_nil, List.sum_nil, Nat.zero_add]
      rw [if_neg (by omega : ¬ video.length ≤ c), hms]
      by_cases hnt : video.length ≤ c + c
      · rw [if_pos hnt]
        have hmod2 : (video.length - c - 1) % c
            = video.length - c - 1 := Nat.mod_eq_of_lt (by omega)
        rw [hmod2]
        by_cases hvr : v < video.length - c - 1 + 1
        · simp only [if_pos hvr]
          rcases hEd with ⟨h1e, h2e⟩ | ⟨h1e, h2e⟩ <;> omega
        · simp only [if_neg hvr]
          rcases hEd with ⟨h1e, h2e⟩ | ⟨h1e, h2e⟩ <;> omega
      · simp only [if_neg hnt]
        have hmlt : (video.length - c - 1) % c < c :=
          Nat.mod_lt _ (by omega)
        by_cases hvr : v < (video.length - c - 1) % c + 1
        · simp only [if_pos hvr]
          rcases hEd with ⟨h1e, h2e⟩ | ⟨h1e, h2e⟩ <;> omega
        · simp only [if_neg hvr]
          rcases hEd with ⟨h1e, h2e⟩ | ⟨h1e, h2e⟩ <;> omega

/-- Blend-record invariant: records are accumulated most-recent-first, each
new record starts at or after the end of every earlier one, because every
earlier record ends within the finalized entries (everything below the
buffer head) and a new record is placed past their total length. -/
theorem chunkLoop_blends_inv (codec : Video → Video) (video : Video)
    (c v : ℕ) :
    ∀ fuel s chs bl k,
      bl.Pairwise (fun b b' => b'.1 + b'.2 ≤ b.1) →
      (∀ b ∈ bl, b.1 + b.2 ≤ ((chs.drop 1).map List.length).sum) →
      (chunkLoop codec video c v fuel s chs bl k).2.1.Pairwise
        (fun b b' => b'.1 + b'.2 ≤ b.1) := by
  intro fuel
  induction fuel with
  | zero => intro s chs bl k h1 _; simpa [chunkLoop] using h1
  | succ n ih =>
    intro s chs bl k h1 h2
    by_cases hs : s < video.length
    · match chs with
      | [] =>
        rw [chunkLoop_step_nil codec video c v n s bl k _ rfl hs]
        refine ih _ _ _ _ h1 ?_
        intro b hb
        have := h2 b hb
        simpa using this
      | prev :: rest =>
        rw [chunkLoop_step_cons codec video c v n s prev rest bl k _ rfl _ rfl
          _ rfl hs]
        refine ih _ _ _ _ ?_ ?_
        · refine List.Pairwise.cons ?_ h1
          intro b hb
          have := h2 b hb
          simp at this ⊢
          omega
        · intro b hb
          rcases List.mem_cons.mp hb with rfl | hb
          · simp
            omega
          · have := h2 b hb
            simp at this ⊢
            omega
    · rw [chunkLoop_stop _ _ _ _ _ _ _ _ _ (by omega)]
      exact h1

/-! ## Frame sampler lemmas -/

theorem qTrunc_of_nonneg (q : ℚ) (h : 0 ≤ q) : qTrunc q = Int.floor q := by
  simp [qTrunc, not_lt.mpr h]

theorem qTrunc_lt_qTrunc (x y : ℚ) (hx : 0 ≤ x) (hxy : x + 1 ≤ y) :
    qTrunc x < qTrunc y := by
  have hy : (0:ℚ) ≤ y := by linarith
  rw [qTrunc_of_nonneg x hx, qTrunc_of_nonneg y hy]
  have h1 : ((Int.floor x + 1 : ℤ) : ℚ) ≤ y := by
    push_cast
    have := Int.floor_le x
    linarith
  have := Int.le_floor.mpr h1
  omega

theorem pyLinspace_length (a b : ℚ) (n : ℕ) : (pyLinspace a b n).length = n := by
  unfold pyLinspace
  split_ifs with h1 h2
  · simp [h1]
  · simp [h2]
  · simp

/-- The samples of `np.linspace(0, m, n)`, truncated to integers, are
strictly increasing and land in `[0, m]` whenever `n ≤ m + 1` (real
spacing at least one). -/
theorem linspace_trunc_mono (m n : ℕ) (hn : n ≤ m + 1) :
    ((pyLinspace 0 (m : ℚ) n).map qTrunc).Pairwise (· < ·) ∧
      ∀ x ∈ (pyLinspace 0 (m : ℚ) n).map qTrunc, 0 ≤ x ∧ x ≤ (m : ℤ) := by
  unfold pyLinspace
  by_cases h0 : n = 0
  · simp [h0]
  by_cases h1 : n = 1
  · subst h1
    rw [if_neg h0, if_pos rfl]
    refine ⟨by simp, ?_⟩
    intro x hx
    simp only [List.map_cons, List.map_nil, List.mem_singleton] at hx
    subst hx
    refine ⟨by decide, ?_⟩
    have : qTrunc 0 = 0 := by decide
    rw [this]
    exact_mod_cast Nat.zero_le m
  · have hn2 : 2 ≤ n := by omega
    rw [if_neg h0, if_neg h1]
    have hd : (0:ℚ) < (n:ℚ) - 1 := by
      have h2 : (2:ℚ) ≤ (n:ℚ) := by exact_mod_cast hn2
      linarith
    have hmd : ((n:ℚ) - 1) ≤ (m:ℚ) := by
      have hcast : ((n:ℚ)) ≤ (m:ℚ) + 1 := by exact_mod_cast hn
      linarith
    have hval : ∀ i : ℕ, (0:ℚ) ≤ 0 + ((m:ℚ) - 0) * i / ((n:ℚ) - 1) := by
      intro i
      rw [zero_add, sub_zero]
      positivity
    rw [List.map_map]
    constructor
    · refine (List.pairwise_lt_range n).map _ ?_
      intro i j hij
      simp only [Function.comp]
      refine qTrunc_lt_qTrunc _ _ (hval i) ?_
      rw [zero_add, zero_add, sub_zero, div_add_one (ne_of_gt hd),
        div_le_div_iff_of_pos_right hd]
      have hij' : (i:ℚ) + 1 ≤ (j:ℚ) := by exact_mod_cast hij
      nlinarith [mul_le_mul_of_nonneg_left hij' (show (0:ℚ) ≤ (m:ℚ) by positivity)]
    · intro x hx
      obtain ⟨i, hi, rfl⟩ := List.mem_map.mp hx
      rw [List.mem_range] at hi
      simp only [Function.comp]
      rw [qTrunc_of_nonneg _ (hval i)]
      refine ⟨Int.floor_nonneg.mpr (hval i), ?_⟩
      have hle : 0 + ((m:ℚ) - 0) * i / ((n:ℚ) - 1) ≤ (m:ℚ) := by
        rw [zero_add, sub_zero, div_le_iff₀ hd]
        have hin : (i:ℚ) + 1 ≤ (n:ℚ) := by exact_mod_cast hi
        nlinarith
      calc Int.floor (0 + ((m:ℚ) - 0) * i / ((n:ℚ) - 1))
          ≤ Int.floor ((m:ℚ)) := Int.floor_le_floor hle
        _ = (m : ℤ) := Int.floor_natCast m

/-! ## Claim theorems -/

/-- Claim C1: `process_in_chunks` raises its fatal configuration error (the
line-50 assertion) if and only if `(chunk_size + overlap - 1) mod 4 ≠ 0`;
when it fires, the run ends with zero codec invocations — the error precedes
any encode/decode — and this holds uniformly in the codec and the input.
In particular `chunk_size = 16`, `overlap = 4` fails this way. -/
theorem C1_precondition_guard (codec : Video → Video) (video : Video)
    (cs ov : ℕ) :
    ((process_in_chunks codec video cs ov).assertOk = false ↔
      ¬ ((cs : ℤ) + (ov : ℤ) - 1) % 4 = 0) ∧
    (¬ ((cs : ℤ) + (ov : ℤ) - 1) % 4 = 0 →
      process_in_chunks codec video cs ov = ⟨false, [], [], none, 0⟩) ∧
    process_in_chunks codec video 16 4 = ⟨false, [], [], none, 0⟩ := by
  refine ⟨?_, ?_, ?_⟩
  · unfold process_in_chunks
    split_ifs with h
    · simp [h]
    · simp [h]
  · intro h
    unfold process_in_chunks
    rw [if_neg h]
  · unfold process_in_chunks
    rw [if_neg (by decide)]

theorem C1_precondition_guard_witness :
    process_in_chunks (fun l => l) [(0 : ℚ)] 16 4 = ⟨false, [], [], none, 0⟩ :=
  (C1_precondition_guard (fun l => l) [(0 : ℚ)] 16 4).2.2

/-- Claim C2: with a previous chunk in the buffer, the driver blends the
last `overlap_step = min(overlap, recon.length)` frames of the previous
entry with the first `overlap_step` frames of the current chunk at the
fixed weights `previous * 1/4 + current * 3/4`, and the blended region
replaces the previous entry's tail (`prev[:-overlap] ++ blended`).  The
first run below exhibits the weights symbolically (previous values `a`,
current values `b`); the second exhibits `overlap_step = min(4, 1) = 1`
with a tail of four frames dropped and one blended frame written back;
the third is the spec's concrete example: previous tail `1.0`, current
head `0.0`, `overlap_step = 1` blends to `0.25`. -/
theorem C2_blend_weights (a b : ℚ) :
    process_in_chunks
        (fun ch => if ch.length = 5 then [a, a, a, a, a] else [b, b, b, b])
        [0, 0, 0, 0, 0, 0, 0, 0] 4 1
      = ⟨true, [[a, a, a, a, a * 1 / 4 + b * 3 / 4], [b, b, b, b]], [(4, 1)],
          some [a, a, a, a, a * 1 / 4 + b * 3 / 4, b, b, b, b], 2⟩ ∧
    process_in_chunks
        (fun ch => if ch.length = 13 then List.replicate 13 a else [b])
        (List.replicate 14 0) 13 4
      = ⟨true,
          [[a, a, a, a, a, a, a, a, a, a * 1 / 4 + b * 3 / 4], [b]], [(9, 1)],
          some [a, a, a, a, a, a, a, a, a, a * 1 / 4 + b * 3 / 4, b], 2⟩ ∧
    (process_in_chunks
        (fun ch => if ch.length = 5 then [1, 1, 1, 1, 1] else [0, 0, 0, 0])
        [0, 0, 0, 0, 0, 0, 0, 0] 4 1).output
      = some [1, 1, 1, 1, 1/4, 0, 0, 0, 0] := by
  have hfam : ∀ x y : ℚ,
      process_in_chunks
          (fun ch => if ch.length = 5 then [x, x, x, x, x] else [y, y, y, y])
          [0, 0, 0, 0, 0, 0, 0, 0] 4 1
        = ⟨true, [[x, x, x, x, x * 1 / 4 + y * 3 / 4], [y, y, y, y]], [(4, 1)],
            some [x, x, x, x, x * 1 / 4 + y * 3 / 4, y, y, y, y], 2⟩ :=
    fun x y => rfl
  refine ⟨hfam a b, rfl, ?_⟩
  rw [hfam 1 0]
  norm_num

/-- Claim C3 is falsified by the code: with the identity codec, a 8-frame
input, `chunk_size = 4`, `overlap = 1` (a valid configuration since
`(4 + 1 - 1) mod 4 = 0`), the output has 9 frames, exceeding `T = 8`: the
final window is appended in full, so its leading `overlap` frames duplicate
the already-blended seam region. -/
theorem C3_counterexample :
    ((4 : ℤ) + (1 : ℤ) - 1) % 4 = 0 ∧
    (List.replicate 8 (0 : ℚ)).length = 8 ∧
    ((process_in_chunks (fun l => l) (List.replicate 8 (0 : ℚ)) 4 1).output.getD
      []).length = 9 := by
  refine ⟨by decide, by decide, by decide⟩

/-- Claim C3 (amended): with an identity codec, input length `T ≥ 1`,
`overlap ≥ 1`, `chunk_size ≥ 2·overlap` and a valid configuration, the
driver completes and its output length is `outputLenFormula T chunk_size
overlap`: exactly `T` when `T ≤ chunk_size`; otherwise, with
`r = (T-1) % chunk_size + 1` the final window length, `T + overlap` when
`r > overlap` and `T + r - overlap` when `r ≤ overlap`.  The output length
therefore never exceeds `T + overlap` (but, contrary to the original
claim, it is not always `T` and can exceed `T`). -/
theorem C3_amended_output_length (codec : Video → Video) (video : Video)
    (c v : ℕ) (hcodec : ∀ l, codec l = l) (hT : 1 ≤ video.length)
    (hv : 1 ≤ v) (hc : 2 * v ≤ c)
    (hpre : ((c : ℤ) + (v : ℤ) - 1) % 4 = 0) :
    ∃ o, (process_in_chunks codec video c v).output = some o ∧
      o.length = outputLenFormula video.length c v ∧
      o.length ≤ video.length + v := by
  obtain ⟨o, ho, hlen⟩ :=
    process_identity_length codec video c v hcodec hT hv hc hpre
  refine ⟨o, ho, hlen, ?_⟩
  rw [hlen]
  unfold outputLenFormula
  split_ifs with h1 h2 <;> omega

theorem C3_amended_output_length_witness :
    ∃ o, (process_in_chunks (fun l => l) (List.replicate 8 (0 : ℚ)) 4 1).output
        = some o ∧
      o.length = outputLenFormula (List.replicate 8 (0 : ℚ)).length 4 1 ∧
      o.length ≤ (List.replicate 8 (0 : ℚ)).length + 1 :=
  C3_amended_output_length (fun l => l) (List.replicate 8 (0 : ℚ)) 4 1
    (fun _ => rfl) (by decide) (by decide) (by decide) (by decide)

theorem chunkLoop_step_cons' (codec : Video → Video) (video : Video)
    (c v : ℕ) (fuel s : ℕ) (prev : Video) (rest : List Video)
    (bl : List (ℕ × ℕ)) (k : ℕ) (e : ℕ)
    (he : e = if s + c + v < video.length then min (s + c) video.length + v
              else min (s + c) video.length)
    (recon : Video) (hrecon : recon = codec ((video.drop s).take (e - s)))
    (ot : Video)
    (hot : ot = List.zipWith (fun p q => p * 1 / 4 + q * 3 / 4)
      (lastSlicePy prev (min v recon.length)) (recon.take (min v recon.length)))
    (h : s < video.length) (hfuel : 0 < fuel) :
    chunkLoop codec video c v fuel s (prev :: rest) bl k =
      chunkLoop codec video c v (fuel - 1) (s + c)
        ((if e < video.length then recon.drop v else recon) ::
          (dropLastPy prev v ++ ot) :: rest)
        (((rest.map List.length).sum + (dropLastPy prev v).length,
          ot.length) :: bl) (k + 1) := by
  obtain ⟨n, rfl⟩ : ∃ n, fuel = n + 1 := ⟨fuel - 1, by omega⟩
  exact chunkLoop_step_cons codec video c v n s prev rest bl k e he recon
    hrecon ot hot h

/-- Claim C6 is falsified: with `chunk_size = 13` over a 40-frame input the
loop starts are 0, 13, 26 and 39 — `39 < 40` still enters the loop — so
there are 4 windows (4 codec invocations) and 3 blend operations, not 3
windows and 2 blends. -/
theorem C6_counterexample :
    (process_in_chunks (fun l => l) (List.replicate 40 (0 : ℚ)) 13 4).codecCalls
        = 4 ∧
    (process_in_chunks (fun l => l)
        (List.replicate 40 (0 : ℚ)) 13 4).blends.length = 3 ∧
    ¬ ((process_in_chunks (fun l => l)
        (List.replicate 40 (0 : ℚ)) 13 4).codecCalls = 3) := by
  refine ⟨by decide, by decide, by decide⟩

/-- Claim C6 (amended): a 40-frame input with `chunk_size = 13`,
`overlap = 4` (valid, `(13+4-1) mod 4 = 0`) is processed in exactly 4
windows — 4 codec invocations, at starts 0, 13, 26, 39 — with exactly 3
blend operations, for every codec. -/
theorem C6_amended_windows (codec : Video → Video) (video : Video)
    (h40 : video.length = 40) :
    (process_in_chunks codec video 13 4).codecCalls = 4 ∧
    (process_in_chunks codec video 13 4).blends.length = 3 := by
  have he1 : (17 : ℕ)
      = if 0 + 13 + 4 < video.length then min (0 + 13) video.length + 4
        else min (0 + 13) video.length := by
    rw [if_pos (by omega), Nat.min_eq_left (by omega)]
  have he2 : (30 : ℕ)
      = if 0 + 13 + 13 + 4 < video.length
        then min (0 + 13 + 13) video.length + 4
        else min (0 + 13 + 13) video.length := by
    rw [if_pos (by omega), Nat.min_eq_left (by omega)]
  have he3 : (39 : ℕ)
      = if 0 + 13 + 13 + 13 + 4 < video.length
        then min (0 + 13 + 13 + 13) video.length + 4
        else min (0 + 13 + 13 + 13) video.length := by
    rw [if_neg (by omega), Nat.min_eq_left (by omega)]
  have he4 : video.length
      = if 0 + 13 + 13 + 13 + 13 + 4 < video.length
        then min (0 + 13 + 13 + 13 + 13) video.length + 4
        else min (0 + 13 + 13 + 13 + 13) video.length := by
    rw [if_neg (by omega), Nat.min_eq_right (by omega)]
  simp only [process_in_chunks,
    if_pos (by decide : ((13 : ℤ) + (4 : ℤ) - 1) % 4 = 0)]
  rw [chunkLoop_step_nil' codec video 13 4 video.length 0 [] 0 17 he1
      (by omega) (by omega),
    chunkLoop_step_cons' codec video 13 4 (video.length - 1) (0 + 13) _ _ _ _
      30 he2 _ rfl _ rfl (by omega) (by omega),
    chunkLoop_step_cons' codec video 13 4 (video.length - 1 - 1) (0 + 13 + 13)
      _ _ _ _ 39 he3 _ rfl _ rfl (by omega) (by omega),
    chunkLoop_step_cons' codec video 13 4 (video.length - 1 - 1 - 1)
      (0 + 13 + 13 + 13) _ _ _ _ video.length he4 _ rfl _ rfl (by omega)
      (by omega),
    chunkLoop_stop _ _ _ _ _ _ _ _ _ (by omega)]
  simp

/-- Claim C7 is falsified at the empty input: `T = 0 ≤ chunk_size` with a
valid configuration performs zero codec passes (not one), and the final
`torch.cat` on an empty buffer raises rather than returning a chunk. -/
theorem C7_counterexample :
    ((4 : ℤ) + (1 : ℤ) - 1) % 4 = 0 ∧
    ([] : Video).length ≤ 4 ∧
    (process_in_chunks (fun l => l) ([] : Video) 4 1).codecCalls = 0 ∧
    (process_in_chunks (fun l => l) ([] : Video) 4 1).output = none := by
  refine ⟨by decide, by decide, by decide, by decide⟩

/-- Claim C7 (amended): for every input with `1 ≤ T ≤ chunk_size` and a
valid configuration, `process_in_chunks` performs exactly one codec pass
over the entire input, returns that single reconstructed chunk unchanged,
and performs no blending — the reconstruction buffer ends (and stays)
at size one. -/
theorem C7_amended_single_pass (codec : Video → Video) (video : Video)
    (c v : ℕ) (h1 : 1 ≤ video.length) (h2 : video.length ≤ c)
    (hpre : ((c : ℤ) + (v : ℤ) - 1) % 4 = 0) :
    process_in_chunks codec video c v
      = ⟨true, [codec video], [], some (codec video), 1⟩ :=
  process_single_window codec video c v h1 h2 hpre

theorem C7_amended_single_pass_witness :
    process_in_chunks (fun l => l) [(5 : ℚ)] 4 1
      = ⟨true, [[(5 : ℚ)]], [], some [(5 : ℚ)], 1⟩ :=
  C7_amended_single_pass (fun l => l) [(5 : ℚ)] 4 1 (by decide) (by decide)
    (by decide)

/-- Claim C8: for every codec, input and valid `chunk_size`/`overlap`, the
output regions written by distinct blend operations are pairwise disjoint:
no output frame position is part of more than one blend. -/
theorem C8_single_seam_touch (codec : Video → Video) (video : Video)
    (cs ov : ℕ) (hpre : ((cs : ℤ) + (ov : ℤ) - 1) % 4 = 0) :
    (process_in_chunks codec video cs ov).blends.Pairwise
      (fun b b' => ∀ i : ℕ, b.1 ≤ i → i < b.1 + b.2 →
        ¬ (b'.1 ≤ i ∧ i < b'.1 + b'.2)) := by
  simp only [process_in_chunks, if_pos hpre]
  have h := chunkLoop_blends_inv codec video cs ov video.length 0 [] [] 0
    (by simp) (by simp)
  refine List.pairwise_reverse.mpr (h.imp ?_)
  intro b b' hbb
  intro i hi1 hi2 hmem
  omega

theorem C8_single_seam_touch_witness :
    (process_in_chunks (fun l => l)
        (List.replicate 10 (0 : ℚ)) 4 1).blends.Pairwise
      (fun b b' => ∀ i : ℕ, b.1 ≤ i → i < b.1 + b.2 →
        ¬ (b'.1 ≤ i ∧ i < b'.1 + b'.2)) :=
  C8_single_seam_touch (fun l => l) (List.replicate 10 (0 : ℚ)) 4 1 (by decide)

theorem qTrunc_intCast (z : ℤ) : qTrunc ((z : ℚ)) = z := by
  by_cases h : ((z : ℚ)) < 0
  · rw [qTrunc, if_pos h, show -((z : ℚ)) = (((-z : ℤ)) : ℚ) by push_cast; ring,
      Int.floor_intCast]
    ring
  · rw [qTrunc, if_neg h, Int.floor_intCast]

/-- Claim C4: when `total_frames ≤ num_frames * sample_rate` the sampler
takes the whole range `[0, total_frames - 1]`, reduces the effective count
to `⌊total/(num*rate) * num⌋`, and emits the diagnostic instead of
erroring.  The spec instance: `total = 10`, `num = 17`, `rate = 1` yields
the full index range `[0, 9]` with effective count 10. -/
theorem C4_sampler_reduction (total num rate : ℕ) (h1 : 1 ≤ total)
    (h2 : 1 ≤ num) (h3 : 1 ≤ rate) (hshort : total ≤ num * rate) :
    (frame_id_list total num rate).2 = true ∧
    (frame_id_list total num rate).1.length
      = (Int.floor ((total : ℚ) / ((num * rate : ℕ) : ℚ) * (num : ℚ))).toNat ∧
    (2 ≤ (frame_id_list total num rate).1.length →
      (0 : ℤ) ∈ (frame_id_list total num rate).1 ∧
      ((total : ℤ) - 1) ∈ (frame_id_list total num rate).1) ∧
    frame_id_list 10 17 1 = ([0, 1, 2, 3, 4, 5, 6, 7, 8, 9], true) := by
  have hcomm : rate * num = num * rate := Nat.mul_comm rate num
  have hcond : ¬ (total > rate * num) := by omega
  have hq0 : (0:ℚ) ≤ (total : ℚ) / ((rate * num : ℕ) : ℚ) * (num : ℚ) := by
    positivity
  have heq : qTrunc ((total : ℚ) / ((rate * num : ℕ) : ℚ) * (num : ℚ))
      = Int.floor ((total : ℚ) / ((num * rate : ℕ) : ℚ) * (num : ℚ)) := by
    rw [qTrunc_of_nonneg _ hq0, hcomm]
  refine ⟨?_, ?_, ?_, ?_⟩
  · simp only [frame_id_list]
    rw [if_neg hcond]
  · simp only [frame_id_list]
    rw [if_neg hcond]
    simp only [List.length_map, pyLinspace_length, heq]
  · intro hlen2
    simp only [frame_id_list] at hlen2 ⊢
    rw [if_neg hcond] at hlen2 ⊢
    simp only [List.length_map, pyLinspace_length] at hlen2
    set eff := (qTrunc ((total : ℚ) / ((rate * num : ℕ) : ℚ) * (num : ℚ))).toNat
      with heff
    have heff2 : 2 ≤ eff := hlen2
    have hd : (0:ℚ) < (eff : ℚ) - 1 := by
      have : (2:ℚ) ≤ (eff : ℚ) := by exact_mod_cast heff2
      linarith
    constructor
    · refine List.mem_map.mpr ⟨0 + (((total : ℚ) - 1) - 0) * ((0 : ℕ) : ℚ) /
        ((eff : ℚ) - 1), ?_, ?_⟩
      · unfold pyLinspace
        rw [if_neg (by omega), if_neg (by omega)]
        exact List.mem_map.mpr ⟨0, List.mem_range.mpr (by omega), rfl⟩
      · rw [show (0 + (((total : ℚ) - 1) - 0) * ((0 : ℕ) : ℚ) /
            ((eff : ℚ) - 1)) = (((0 : ℤ)) : ℚ) by push_cast; ring,
          qTrunc_intCast]
    · refine List.mem_map.mpr ⟨0 + (((total : ℚ) - 1) - 0) *
        ((eff - 1 : ℕ) : ℚ) / ((eff : ℚ) - 1), ?_, ?_⟩
      · unfold pyLinspace
        rw [if_neg (by omega), if_neg (by omega)]
        exact List.mem_map.mpr ⟨eff - 1, List.mem_range.mpr (by omega), rfl⟩
      · have hcast : ((eff - 1 : ℕ) : ℚ) = (eff : ℚ) - 1 := by
          rw [Nat.cast_sub (by omega), Nat.cast_one]
        have hct : ((total : ℚ) - 1) = (((total : ℤ) - 1 : ℤ) : ℚ) := by
          push_cast
          ring
        rw [hcast, zero_add, sub_zero,
          mul_div_cancel_right₀ _ (ne_of_gt hd), hct, qTrunc_intCast]
  · have h10 : ((10 : ℕ) : ℚ) / ((1 * 17 : ℕ) : ℚ) * ((17 : ℕ) : ℚ)
        = (((10 : ℤ)) : ℚ) := by
      push_cast
      norm_num
    simp only [frame_id_list]
    rw [if_neg (by norm_num), h10, qTrunc_intCast,
      show Int.toNat 10 = 10 from rfl]
    have hr : pyLinspace 0 (((10 : ℕ) : ℚ) - 1) 10
        = [0, 1, 2, 3, 4, 5, 6, 7, 8, 9] := by
      unfold pyLinspace
      rw [if_neg (by norm_num), if_neg (by norm_num),
        show List.range 10 = [0,1,2,3,4,5,6,7,8,9] from rfl]
      norm_num
    rw [hr]
    have hmapq : List.map qTrunc [(0:ℚ), 1, 2, 3, 4, 5, 6, 7, 8, 9]
        = [0, 1, 2, 3, 4, 5, 6, 7, 8, 9] := by
      simp only [List.map_cons, List.map_nil]
      norm_num [qTrunc]
    rw [hmapq]

theorem C4_sampler_reduction_witness :
    (frame_id_list 10 17 1).2 = true ∧
    (frame_id_list 10 17 1).1.length
      = (Int.floor (((10:ℕ) : ℚ) / (((17 * 1 : ℕ)) : ℚ) * ((17:ℕ) : ℚ))).toNat ∧
    (2 ≤ (frame_id_list 10 17 1).1.length →
      (0 : ℤ) ∈ (frame_id_list 10 17 1).1 ∧
      (((10:ℕ) : ℤ) - 1) ∈ (frame_id_list 10 17 1).1) ∧
    frame_id_list 10 17 1 = ([0, 1, 2, 3, 4, 5, 6, 7, 8, 9], true) :=
  C4_sampler_reduction 10 17 1 (by decide) (by decide) (by decide) (by decide)

/-- Claim C9: for every video with at least one frame and positive
`num_frames`/`sample_rate`, the sampled index list lies in
`[0, total_frames)` and is strictly increasing — in both branches of the
sampler. -/
theorem C9_sampler_index_guarantee (total num rate : ℕ) (h1 : 1 ≤ total)
    (h2 : 1 ≤ num) (h3 : 1 ≤ rate) :
    (frame_id_list total num rate).1.Pairwise (· < ·) ∧
    ∀ x ∈ (frame_id_list total num rate).1, 0 ≤ x ∧ x < (total : ℤ) := by
  have hspan : 1 ≤ rate * num := by
    have := Nat.mul_le_mul h3 h2
    simpa using this
  simp only [frame_id_list]
  by_cases hbig : total > rate * num
  · rw [if_pos hbig]
    have hcast : ((rate * num : ℕ) : ℚ) - 1 = ((rate * num - 1 : ℕ) : ℚ) := by
      rw [Nat.cast_sub hspan, Nat.cast_one]
    rw [hcast]
    have hnum : num ≤ rate * num - 1 + 1 := by
      have := Nat.le_mul_of_pos_left num h3
      omega
    obtain ⟨hmono, hbd⟩ := linspace_trunc_mono (rate * num - 1) num hnum
    refine ⟨hmono, fun x hx => ?_⟩
    obtain ⟨hx0, hxle⟩ := hbd x hx
    refine ⟨hx0, ?_⟩
    have hlt : ((rate * num - 1 : ℕ) : ℤ) < (total : ℤ) := by
      exact_mod_cast (by omega : rate * num - 1 < total)
    omega
  · rw [if_neg hbig]
    have hsp : (0:ℚ) < ((rate * num : ℕ) : ℚ) := by exact_mod_cast hspan
    have hX0 : (0:ℚ) ≤ (total : ℚ) / ((rate * num : ℕ) : ℚ) * (num : ℚ) := by
      positivity
    have hXle : (total : ℚ) / ((rate * num : ℕ) : ℚ) * (num : ℚ)
        ≤ (total : ℚ) := by
      rw [div_mul_eq_mul_div, div_le_iff₀ hsp]
      have hnm : ((num : ℕ) : ℚ) ≤ ((rate * num : ℕ) : ℚ) := by
        exact_mod_cast Nat.le_mul_of_pos_left num h3
      nlinarith [show (0:ℚ) ≤ (total:ℚ) from by positivity]
    have heffle :
        (qTrunc ((total : ℚ) / ((rate * num : ℕ) : ℚ) * (num : ℚ))).toNat
          ≤ total := by
      have h' : qTrunc ((total : ℚ) / ((rate * num : ℕ) : ℚ) * (num : ℚ))
          ≤ (total : ℤ) := by
        rw [qTrunc_of_nonneg _ hX0]
        calc Int.floor ((total : ℚ) / ((rate * num : ℕ) : ℚ) * (num : ℚ))
            ≤ Int.floor ((total : ℚ)) := Int.floor_le_floor hXle
          _ = (total : ℤ) := Int.floor_natCast total
      omega
    have hcast : ((total : ℕ) : ℚ) - 1 = ((total - 1 : ℕ) : ℚ) := by
      rw [Nat.cast_sub h1, Nat.cast_one]
    rw [hcast]
    obtain ⟨hmono, hbd⟩ := linspace_trunc_mono (total - 1)
      ((qTrunc ((total : ℚ) / ((rate * num : ℕ) : ℚ) * (num : ℚ))).toNat)
      (by omega)
    refine ⟨hmono, fun x hx => ?_⟩
    obtain ⟨hx0, hxle⟩ := hbd x hx
    refine ⟨hx0, ?_⟩
    have hlt : ((total - 1 : ℕ) : ℤ) < (total : ℤ) := by
      exact_mod_cast (by omega : total - 1 < total)
    omega

theorem C9_sampler_index_guarantee_witness :
    (frame_id_list 10 17 1).1.Pairwise (· < ·) ∧
    ∀ x ∈ (frame_id_list 10 17 1).1, 0 ≤ x ∧ x < ((10:ℕ) : ℤ) :=
  C9_sampler_index_guarantee 10 17 1 (by decide) (by decide) (by decide)

/-- Claim C10: `custom_to_video` clamps each element to `[-1, 1]`, maps it
affinely by `(x+1)/2` and scales by 255, so the value handed to the uint8
cast lies in `[0, 255]` and the resulting integer pixel is in `[0, 255]`
for every real input, also outside `[-1, 1]`; e.g. `2 ↦ 255`, `-2 ↦ 0`,
and `1/2 ↦ ⌊191.25⌋ = 191`. -/
theorem C10_emitter_pixel_range :
    (∀ x : ℚ, 0 ≤ custom_to_video_pre x ∧ custom_to_video_pre x ≤ 255 ∧
      0 ≤ custom_to_video_pixel x ∧ custom_to_video_pixel x ≤ 255) ∧
    custom_to_video_pixel 2 = 255 ∧
    custom_to_video_pixel (-2) = 0 ∧
    custom_to_video_pixel (1/2) = 191 := by
  have hpre : ∀ x : ℚ,
      0 ≤ custom_to_video_pre x ∧ custom_to_video_pre x ≤ 255 := by
    intro x
    unfold custom_to_video_pre tclamp
    have hc1 : (-1:ℚ) ≤ max (-1) (min x 1) := le_max_left _ _
    have hc2 : max (-1:ℚ) (min x 1) ≤ 1 :=
      max_le (by norm_num) (min_le_right _ _)
    constructor <;> nlinarith
  refine ⟨?_, ?_, ?_, ?_⟩
  · intro x
    obtain ⟨hp0, hp255⟩ := hpre x
    refine ⟨hp0, hp255, ?_, ?_⟩
    · unfold custom_to_video_pixel
      rw [qTrunc_of_nonneg _ hp0]
      exact Int.floor_nonneg.mpr hp0
    · unfold custom_to_video_pixel
      rw [qTrunc_of_nonneg _ hp0]
      calc Int.floor (custom_to_video_pre x)
          ≤ Int.floor ((255:ℚ)) := Int.floor_le_floor hp255
        _ = 255 := by norm_num
  · unfold custom_to_video_pixel custom_to_video_pre tclamp
    norm_num [qTrunc]
  · unfold custom_to_video_pixel custom_to_video_pre tclamp
    norm_num [qTrunc]
  · unfold custom_to_video_pixel custom_to_video_pre tclamp qTrunc
    rw [show max (-1:ℚ) (min (1/2) 1) = 1/2 from by norm_num,
      if_neg (by norm_num),
      show (255:ℚ) * ((1/2 + 1)/2) = 765/4 from by norm_num]
    rw [Int.floor_eq_iff]
    norm_num

/-- Claim C5: on a dense `(C, T, H, W)` tensor with `C ≥ 1`, `T ≥ 1`,
`H ≥ 1`, the shape normalizer (with the source defaults
`time_compress = 4`, `spatial_compress = 8`) returns the prefix sub-tensor
with time `t-1-((t-1) mod 4)` when `(t-1) mod 4 ≠ 0` and `t` otherwise,
and height/width equal to the largest multiples of 8 not exceeding the
originals; no dimension ever increases; values are preserved (prefix).
Spec instances: time 18 ↦ 16 and height 130 ↦ 128. -/
theorem C5_shape_normalizer (f : ℕ → ℕ → ℕ → ℕ → ℚ) (ch t h w : ℕ)
    (hch : 1 ≤ ch) (ht : 1 ≤ t) (hh : 1 ≤ h) :
    format_video_shape (mkTensor ch t h w f) 4 8
      = mkTensor ch (newTimeOf t 4) (newSpatialOf h 8) (newSpatialOf w 8) f ∧
    newTimeOf t 4
      = (if (t - 1) % 4 ≠ 0 then t - 1 - (t - 1) % 4 else t) ∧
    newTimeOf t 4 ≤ t ∧
    newSpatialOf h 8 ≤ h ∧ newSpatialOf h 8 % 8 = 0 ∧
    h < newSpatialOf h 8 + 8 ∧
    newSpatialOf w 8 ≤ w ∧ newSpatialOf w 8 % 8 = 0 ∧
    w < newSpatialOf w 8 + 8 ∧
    newTimeOf 18 4 = 16 ∧ newSpatialOf 130 8 = 128 := by
  have hnt : newTimeOf t 4 ≤ t := by unfold newTimeOf; split_ifs <;> omega
  have hnh : newSpatialOf h 8 ≤ h := by unfold newSpatialOf; split_ifs <;> omega
  have hnw : newSpatialOf w 8 ≤ w := by unfold newSpatialOf; split_ifs <;> omega
  refine ⟨?_, rfl, hnt, hnh, ?_, ?_, hnw, ?_, ?_, by decide, by decide⟩
  · obtain ⟨ch', rfl⟩ : ∃ k, ch = k + 1 := ⟨ch - 1, by omega⟩
    obtain ⟨t', rfl⟩ : ∃ k, t = k + 1 := ⟨t - 1, by omega⟩
    obtain ⟨h', rfl⟩ : ∃ k, h = k + 1 := ⟨h - 1, by omega⟩
    have hread : (mkTensor (ch' + 1) (t' + 1) (h' + 1) w f).headD []
        = (List.range (t' + 1)).map (fun j =>
            (List.range (h' + 1)).map fun k =>
              (List.range w).map fun l => f 0 j k l) := by
      unfold mkTensor
      rw [List.range_succ_eq_map ch', List.map_cons, List.headD_cons]
    have hread2 : ((List.range (t' + 1)).map (fun j =>
            (List.range (h' + 1)).map fun k =>
              (List.range w).map fun l => f 0 j k l)).headD []
        = (List.range (h' + 1)).map (fun k =>
            (List.range w).map fun l => f 0 0 k l) := by
      rw [List.range_succ_eq_map t', List.map_cons, List.headD_cons]
    have hread3 : ((List.range (h' + 1)).map (fun k =>
            (List.range w).map fun l => f 0 0 k l)).headD []
        = (List.range w).map fun l => f 0 0 0 l := by
      rw [List.range_succ_eq_map h', List.map_cons, List.headD_cons]
    simp only [format_video_shape, hread, hread2, hread3, List.length_map,
      List.length_range]
    unfold mkTensor
    rw [List.map_map]
    refine List.map_congr_left (fun i _ => ?_)
    simp only [Function.comp]
    rw [← List.map_take, List.take_range, Nat.min_eq_left hnt, List.map_map]
    refine List.map_congr_left (fun j _ => ?_)
    simp only [Function.comp]
    rw [← List.map_take, List.take_range, Nat.min_eq_left hnh, List.map_map]
    refine List.map_congr_left (fun k _ => ?_)
    simp only [Function.comp]
    rw [← List.map_take, List.take_range, Nat.min_eq_left hnw]
  · unfold newSpatialOf; split_ifs <;> omega
  · unfold newSpatialOf; split_ifs <;> omega
  · unfold newSpatialOf; split_ifs <;> omega
  · unfold newSpatialOf; split_ifs <;> omega

theorem C5_shape_normalizer_witness :
    format_video_shape (mkTensor 1 18 2 1 (fun _ _ _ _ => 0)) 4 8
      = mkTensor 1 (newTimeOf 18 4) (newSpatialOf 2 8) (newSpatialOf 1 8)
          (fun _ _ _ _ => 0) ∧
    newTimeOf 18 4
      = (if (18 - 1) % 4 ≠ 0 then 18 - 1 - (18 - 1) % 4 else 18) ∧
    newTimeOf 18 4 ≤ 18 ∧
    newSpatialOf 2 8 ≤ 2 ∧ newSpatialOf 2 8 % 8 = 0 ∧
    2 < newSpatialOf 2 8 + 8 ∧
    newSpatialOf 1 8 ≤ 1 ∧ newSpatialOf 1 8 % 8 = 0 ∧
    1 < newSpatialOf 1 8 + 8 ∧
    newTimeOf 18 4 = 16 ∧ newSpatialOf 130 8 = 128 :=
  C5_shape_normalizer (fun _ _ _ _ => 0) 1 18 2 1 (by decide) (by decide)
    (by decide)

theorem C6_amended_windows_witness :
    (process_in_chunks (fun l => l)
        (List.replicate 40 (0 : ℚ)) 13 4).codecCalls = 4 ∧
    (process_in_chunks (fun l => l)
        (List.replicate 40 (0 : ℚ)) 13 4).blends.length = 3 :=
  C6_amended_windows (fun l => l) (List.replicate 40 (0 : ℚ)) (by decide)
